import Mathlib

/-!
Shallow embedding of the image-processing pipeline of the
random-album-art generator (box blur, blur map, contrast, Floyd-Steinberg
dithering, noise compositing), together with proofs of the specified
properties.

Pixel buffers are modelled as JavaScript `ImageData` objects: a flat list
of 8-bit channel samples (natural numbers, `Uint8ClampedArray` entries)
plus a width and a height.  Intermediate arithmetic is carried out in `ℚ`
(the reference implementation uses IEEE doubles; the algorithms are
specified over exact arithmetic).  Storing a value into a
`Uint8ClampedArray` clamps it to `[0, 255]` and rounds ties to even; this
is modelled by `toU8`.
-/

namespace AlbumArt

/-- A JavaScript `ImageData`: flat RGBA samples in row-major order. -/
structure ImageData where
  data : List ℕ
  width : ℕ
  height : ℕ
  deriving DecidableEq

/-- Read a channel sample as a rational (JS reads a `Uint8ClampedArray` entry). -/
def getQ (d : List ℕ) (i : ℕ) : ℚ := (d.getD i 0 : ℚ)

/-- Clamp a rational to the interval `[0, 255]`. -/
def clamp255 (x : ℚ) : ℚ := max 0 (min 255 x)

/-- Round to the nearest integer, ties to even (ECMAScript `ToUint8Clamp` rounding). -/
def rne (x : ℚ) : ℤ :=
  let n := ⌊x⌋
  if x - n < 1/2 then n
  else if (1/2 : ℚ) < x - n then n + 1
  else if n % 2 = 0 then n else n + 1

/-- Store a rational into a `Uint8ClampedArray` cell: clamp to `[0,255]`,
then round ties-to-even, yielding an 8-bit sample. -/
def toU8 (x : ℚ) : ℕ := (rne (clamp255 x)).toNat

/-! ### Contrast enhancement

Source (`script.js`, `enhanceContrast`): for each pixel, each of the first
three channels is replaced by `factor * (old - 128) + 128`, clamped to
`[0, 255]` by the explicit `Math.max/Math.min` and by the
`Uint8ClampedArray` store; the alpha channel is not written. -/

def enhanceContrast (img : ImageData) (factor : ℚ) : ImageData :=
  ⟨(List.range img.data.length).map (fun i =>
      if i % 4 < 3 then toU8 (factor * (getQ img.data i - 128) + 128)
      else img.data.getD i 0),
   img.width, img.height⟩

/-! ### Box blur

Source (`script.js`, `boxBlurImageData`; `part_000`,
`variableBoxBlurImageData`): two separable passes.  In the horizontal pass
the output at `(x, y)` is, for each channel, the sum of the in-bounds
samples `(x+dx, y)` for `dx ∈ [-r, r]` divided by the number of in-bounds
samples; the vertical pass does the same over `(x, y+dy)` on the
intermediate buffer.  Both passes read the per-pixel radius `ρ x y` at the
destination pixel; the fixed-radius blur is the constant-radius instance. -/

/-- Window offsets `dx ∈ [-r, r]` whose sample `x + dx` lies inside `[0, bound)`
(the `if (nx >= 0 && nx < width)` guard of the source loop). -/
def windowF (bound : ℕ) (x : ℕ) (r : ℤ) : Finset ℤ :=
  (Finset.Icc (-r) r).filter (fun dx => 0 ≤ (x : ℤ) + dx ∧ (x : ℤ) + dx < bound)

/-- Horizontal-pass channel sum at pixel `(x, y)`, channel `c`, radius `r`. -/
def hSum (d : List ℕ) (w : ℕ) (x y c : ℕ) (r : ℤ) : ℚ :=
  (windowF w x r).sum (fun dx => getQ d ((y * w + ((x : ℤ) + dx).toNat) * 4 + c))

/-- Vertical-pass channel sum at pixel `(x, y)`, channel `c`, radius `r`. -/
def vSum (d : List ℕ) (w h : ℕ) (x y c : ℕ) (r : ℤ) : ℚ :=
  (windowF h y r).sum (fun dy => getQ d ((((y : ℤ) + dy).toNat * w + x) * 4 + c))

/-- Horizontal blur pass with per-destination-pixel radius `ρ x y`. -/
def passH (d : List ℕ) (w h : ℕ) (ρ : ℕ → ℕ → ℤ) : List ℕ :=
  (List.range (w * h * 4)).map (fun i =>
    toU8 (hSum d w (i / 4 % w) (i / 4 / w) (i % 4) (ρ (i / 4 % w) (i / 4 / w)) /
      ((windowF w (i / 4 % w) (ρ (i / 4 % w) (i / 4 / w))).card : ℚ)))

/-- Vertical blur pass with per-destination-pixel radius `ρ x y`. -/
def passV (d : List ℕ) (w h : ℕ) (ρ : ℕ → ℕ → ℤ) : List ℕ :=
  (List.range (w * h * 4)).map (fun i =>
    toU8 (vSum d w h (i / 4 % w) (i / 4 / w) (i % 4) (ρ (i / 4 % w) (i / 4 / w)) /
      ((windowF h (i / 4 / w) (ρ (i / 4 % w) (i / 4 / w))).card : ℚ)))

/-- Fixed-radius two-pass box blur (`boxBlurImageData` of the source). -/
def boxBlurImageData (img : ImageData) (radius : ℕ) : ImageData :=
  ⟨passV (passH img.data img.width img.height (fun _ _ => (radius : ℤ)))
      img.width img.height (fun _ _ => (radius : ℤ)),
   img.width, img.height⟩

/-! ### Blur map and variable-radius blur

Source (`part_000`, `generateBlurMap`): for each pixel, three sine/cosine
cross terms at fixed frequencies (`scale = 0.01`) are summed, normalised
from `[-3, 3]` to `[0, 1]`, linearly mapped to `[minRadius, maxRadius]`
and floored.  `variableBoxBlurImageData` runs the two blur passes with the
per-pixel radius `blurMap[y * width + x]` read at the destination pixel. -/

/-- The deterministic multi-harmonic noise of `generateBlurMap`. -/
noncomputable def blurNoise (x y : ℕ) : ℝ :=
  Real.sin ((x : ℝ) * 0.01 * 0.5) * Real.cos ((y : ℝ) * 0.01 * 0.7) +
  Real.sin ((x : ℝ) * 0.01 * 1.3) * Real.cos ((y : ℝ) * 0.01 * 1.1) +
  Real.sin ((x : ℝ) * 0.01 * 2.3 + (y : ℝ) * 0.01 * 1.5)

/-- Per-pixel blur radius map (`generateBlurMap` of the source); entry `i`
is the radius of the pixel at `(i % width, i / width)`. -/
noncomputable def generateBlurMap (w h minRadius maxRadius : ℕ) : ℕ → ℤ := fun i =>
  ⌊(minRadius : ℝ) + (blurNoise (i % w) (i / w) + 3) / 6 * ((maxRadius : ℝ) - (minRadius : ℝ))⌋

/-- Variable-radius two-pass box blur (`variableBoxBlurImageData` of the source). -/
noncomputable def variableBoxBlurImageData (img : ImageData) (minRadius maxRadius : ℕ) :
    ImageData :=
  ⟨passV (passH img.data img.width img.height
        (fun x y => generateBlurMap img.width img.height minRadius maxRadius (y * img.width + x)))
      img.width img.height
      (fun x y => generateBlurMap img.width img.height minRadius maxRadius (y * img.width + x)),
   img.width, img.height⟩

/-! ### Floyd-Steinberg dithering

Source (`script.js`, `floydSteinbergDitherImageData`): the byte buffer is
copied into a float working array; `step = 4000 / (shades - 1)`; pixels
are scanned row-major (y outer, x inner), and for each of the first three
channels the working value is replaced by `round(old/step) * step` while
the quantisation error `old - new` is diffused to the in-bounds neighbours
`(x+1, y)`, `(x-1, y+1)`, `(x, y+1)`, `(x+1, y+1)` with weights
`7/16, 3/16, 5/16, 1/16`.  Finally every cell is clamped to `[0, 255]` and
narrowed back to 8 bits.  The working array is modelled as a function
`ℕ → ℚ`. -/

/-- The dithering quantisation step `4000 / (shades - 1)`. -/
def ditherStepSize (shades : ℕ) : ℚ := 4000 / ((shades : ℚ) - 1)

/-- Guarded error diffusion `if (cond) data[t] += inc` of the source. -/
def diffuseTo (cond : Prop) [Decidable cond] (t : ℕ) (inc : ℚ) (a : ℕ → ℚ) : ℕ → ℚ :=
  if cond then Function.update a t (a t + inc) else a

/-- One channel of one pixel of the dithering scan: quantise the cell
`(y*w + x)*4 + c` and diffuse its error to the four in-bounds neighbour
cells, updating the working array. -/
def ditherChannelStep (w h : ℕ) (step : ℚ) (y x c : ℕ) (a : ℕ → ℚ) : ℕ → ℚ :=
  let index := (y * w + x) * 4
  let oldVal := a (index + c)
  let newVal := (round (oldVal / step) : ℚ) * step
  let error := oldVal - newVal
  let a1 := Function.update a (index + c) newVal
  let a2 := diffuseTo (x + 1 < w) (index + 4 + c) (error * (7/16)) a1
  let a3 := diffuseTo (1 ≤ x ∧ y + 1 < h) (index + w * 4 + c - 4) (error * (3/16)) a2
  let a4 := diffuseTo (y + 1 < h) (index + w * 4 + c) (error * (5/16)) a3
  diffuseTo (x + 1 < w ∧ y + 1 < h) (index + 4 + w * 4 + c) (error * (1/16)) a4

/-- The float working array after the full dithering scan. -/
def ditherFloats (img : ImageData) (shades : ℕ) : ℕ → ℚ :=
  (List.range img.height).foldl (fun a y =>
    (List.range img.width).foldl (fun a x =>
      (List.range 3).foldl (fun a c =>
        ditherChannelStep img.width img.height (ditherStepSize shades) y x c a) a) a)
    (fun i => getQ img.data i)

/-- Floyd-Steinberg dithering (`floydSteinbergDitherImageData` of the
source): run the scan, then clamp every cell to `[0, 255]` and narrow to
8 bits. -/
def floydSteinbergDitherImageData (img : ImageData) (shades : ℕ) : ImageData :=
  ⟨(List.range img.data.length).map (fun i => toU8 (ditherFloats img shades i)),
   img.width, img.height⟩

/-- The error-diffusion weight with which the scan step at `(x, y, c)`
updates cell `j` (0 when `j` is not an in-bounds neighbour cell). -/
def dWeight (w h x y c : ℕ) (j : ℕ) : ℚ :=
  (if x + 1 < w ∧ j = (y * w + x) * 4 + 4 + c then 7/16 else 0) +
  (if (1 ≤ x ∧ y + 1 < h) ∧ j = (y * w + x) * 4 + w * 4 + c - 4 then 3/16 else 0) +
  (if y + 1 < h ∧ j = (y * w + x) * 4 + w * 4 + c then 5/16 else 0) +
  (if (x + 1 < w ∧ y + 1 < h) ∧ j = (y * w + x) * 4 + 4 + w * 4 + c then 1/16 else 0)

/-- Total error-diffusion weight already received by cell `(x, y, c)` from
the scan steps strictly before position `m` (positions are numbered
`3*(y*w + x) + c` in scan order). -/
def recvW (w h m x y c : ℕ) : ℚ :=
  (if 1 ≤ x ∧ 3 * (y * w + (x - 1)) + c < m then 7/16 else 0) +
  (if x + 1 < w ∧ 1 ≤ y ∧ 3 * ((y - 1) * w + (x + 1)) + c < m then 3/16 else 0) +
  (if 1 ≤ y ∧ 3 * ((y - 1) * w + x) + c < m then 5/16 else 0) +
  (if 1 ≤ x ∧ 1 ≤ y ∧ 3 * ((y - 1) * w + (x - 1)) + c < m then 1/16 else 0)

/-- Scan invariant for the dithering working array after the first `m`
scan steps: every already-processed RGB cell holds a ladder value
`k * step` with `k ≤ shades - 1`, and every not-yet-processed RGB cell has
drifted from its initial value by at most `step/2` times the diffusion
weight it has received so far. -/
def DInv (w h shades : ℕ) (step : ℚ) (init : ℕ → ℚ) (m : ℕ) (a : ℕ → ℚ) : Prop :=
  ∀ x y c : ℕ, x < w → y < h → c < 3 →
    (3 * (y * w + x) + c < m →
      ∃ k : ℕ, k ≤ shades - 1 ∧ a ((y * w + x) * 4 + c) = (k : ℚ) * step) ∧
    (¬(3 * (y * w + x) + c < m) →
      |a ((y * w + x) * 4 + c) - init ((y * w + x) * 4 + c)| ≤ step / 2 * recvW w h m x y c)

/-! ### Noise compositing

Source (`part_000`, `applyNoise`): a same-size grayscale noise buffer is
generated (uniform random base value in `[0, 255)`, two sine/cosine
structural terms, and a random term scaled by `noiseScale`, floored and
stored through a `Uint8ClampedArray`), then blended into the image:
`channel = min(255, channel + (noiseValue - 128) * noiseOpacity)` for the
first three channels of each pixel, stored through a `Uint8ClampedArray`
(which also clamps below at 0).  The two `Math.random()` streams are
modelled as explicit functions `rand1, rand2 : ℕ → ℚ` indexed by pixel. -/

/-- The deterministic structural part of the noise value at pixel `(x, y)`. -/
noncomputable def noiseStructural (x y : ℕ) : ℝ :=
  Real.sin ((x : ℝ) * 0.07) * Real.cos ((y : ℝ) * 0.05) * 15 +
  Real.sin ((x : ℝ) * 0.15) * Real.cos ((y : ℝ) * 0.12) * 10

/-- The floored noise value at pixel `p` (before the clamped store). -/
noncomputable def noiseValue (scale : ℚ) (rand1 rand2 : ℕ → ℚ) (w : ℕ) (p : ℕ) : ℤ :=
  ⌊((rand1 p * 255 : ℚ) : ℝ) +
    (noiseStructural (p % w) (p / w) + (((rand2 p - 1/2) * 255 * scale : ℚ) : ℝ))⌋

/-- The noise-buffer byte at pixel `p`: the floored noise value stored
through a `Uint8ClampedArray` (clamped to `[0, 255]`). -/
noncomputable def noiseByte (scale : ℚ) (rand1 rand2 : ℕ → ℚ) (w : ℕ) (p : ℕ) : ℕ :=
  (max 0 (min 255 (noiseValue scale rand1 rand2 w p))).toNat

/-- Noise compositing (`applyNoise` of the source): blend the noise buffer
into the first three channels of each pixel with the given opacity; the
alpha channel is not written. -/
noncomputable def applyNoise (img : ImageData) (opacity scale : ℚ)
    (rand1 rand2 : ℕ → ℚ) : ImageData :=
  ⟨(List.range img.data.length).map (fun i =>
      if i % 4 < 3 then
        toU8 (min 255 (getQ img.data i +
          ((noiseByte scale rand1 rand2 img.width (i / 4) : ℚ) - 128) * opacity))
      else img.data.getD i 0),
   img.width, img.height⟩

/-! ### Helper lemmas about 8-bit storage and indexing -/

theorem clamp255_nonneg (x : ℚ) : 0 ≤ clamp255 x := le_max_left 0 _

theorem clamp255_le_255 (x : ℚ) : clamp255 x ≤ 255 := by
  unfold clamp255
  rcases le_total 0 (min 255 x) with h | h
  · rw [max_eq_right h]; exact min_le_left _ _
  · rw [max_eq_left h]; norm_num

theorem rne_nonneg {x : ℚ} (hx : 0 ≤ x) : 0 ≤ rne x := by
  unfold rne
  have h0 : (0 : ℤ) ≤ ⌊x⌋ := Int.le_floor.mpr (by exact_mod_cast hx)
  dsimp only
  split
  · exact h0
  · split
    · omega
    · split
      · exact h0
      · omega

theorem rne_le {x : ℚ} {n : ℤ} (hx : x ≤ n) : rne x ≤ n := by
  unfold rne
  have hfl : ⌊x⌋ ≤ n := by
    have hxq : x ≤ ((n : ℤ) : ℚ) := by exact_mod_cast hx
    have := Int.floor_le_floor hxq
    rwa [Int.floor_intCast] at this
  dsimp only
  split
  · exact hfl
  · rename_i h1
    push_neg at h1
    -- here 1/2 ≤ x - ⌊x⌋, so x is not an integer, hence ⌊x⌋ < n or x = n impossible unless ⌊x⌋ < n
    have hlt : ⌊x⌋ < n := by
      rcases lt_or_eq_of_le hfl with h | h
      · exact h
      · exfalso
        have : (⌊x⌋ : ℚ) = n := by exact_mod_cast h
        have hxn : x - ⌊x⌋ ≥ 1/2 := h1
        have : x ≥ (⌊x⌋ : ℚ) + 1/2 := by linarith
        have hcast : ((n : ℚ)) ≥ (⌊x⌋ : ℚ) + 1/2 := by
          calc ((n : ℚ)) ≥ x := by exact_mod_cast hx
            _ ≥ (⌊x⌋ : ℚ) + 1/2 := this
        rw [← ‹(⌊x⌋ : ℚ) = n›] at hcast
        linarith
    split
    · omega
    · split
      · exact hfl
      · omega

theorem rne_intCast (n : ℤ) : rne (n : ℚ) = n := by
  unfold rne
  have h1 : ⌊(n : ℚ)⌋ = n := Int.floor_intCast n
  rw [h1]
  norm_num

theorem toU8_le_255 (x : ℚ) : toU8 x ≤ 255 := by
  unfold toU8
  have h255 : clamp255 x ≤ ((255 : ℤ) : ℚ) := by exact_mod_cast clamp255_le_255 x
  have h := rne_le h255
  omega

theorem toU8_natCast {v : ℕ} (hv : v ≤ 255) : toU8 (v : ℚ) = v := by
  unfold toU8
  have hcl : clamp255 (v : ℚ) = (v : ℚ) := by
    unfold clamp255
    have h1 : (v : ℚ) ≤ 255 := by exact_mod_cast hv
    have h2 : (0 : ℚ) ≤ (v : ℚ) := by positivity
    rw [min_eq_right h1, max_eq_right h2]
  rw [hcl]
  have : ((v : ℤ) : ℚ) = (v : ℚ) := by norm_cast
  rw [← this, rne_intCast]
  exact Int.toNat_natCast v

theorem getD_map_range {f : ℕ → ℕ} {n i : ℕ} (hi : i < n) :
    ((List.range n).map f).getD i 0 = f i := by
  rw [List.getD_eq_getElem?_getD, List.getElem?_map, List.getElem?_range hi]
  rfl

theorem length_map_range (f : ℕ → ℕ) (n : ℕ) : ((List.range n).map f).length = n := by
  simp

/-- Claim C8: the contrast stage with factor 1.0 is the identity on every
buffer whose channel values lie in `[0, 255]`. -/
theorem claim_C8_contrast_identity (img : ImageData)
    (hdata : ∀ v ∈ img.data, v ≤ 255) :
    enhanceContrast img 1 = img := by
  obtain ⟨d, w, h⟩ := img
  simp only [enhanceContrast]
  congr 1
  apply List.ext_getElem
  · simp
  · intro i hi hlen
    have hin : i < d.length := by simpa using hlen
    have hget : ((List.range d.length).map (fun i =>
        if i % 4 < 3 then toU8 (1 * (getQ d i - 128) + 128) else d.getD i 0))[i] =
        (if i % 4 < 3 then toU8 (1 * (getQ d i - 128) + 128) else d.getD i 0) := by
      simp [hin]
    rw [hget]
    have hv : d.getD i 0 = d[i] := List.getD_eq_getElem d 0 hin
    have hvle : d[i] ≤ 255 := hdata _ (List.getElem_mem hin)
    by_cases hc : i % 4 < 3
    · simp only [hc, if_true]
      have : (1 : ℚ) * (getQ d i - 128) + 128 = getQ d i := by ring
      rw [this]
      unfold getQ
      rw [hv, toU8_natCast hvle]
    · simp only [hc, if_false]
      exact hv

/-- Witness for C8 at a concrete buffer. -/
theorem claim_C8_contrast_identity_witness :
    (∀ v ∈ ([10, 20, 30, 255, 0, 255, 100, 200] : List ℕ), v ≤ 255) ∧
    enhanceContrast ⟨[10, 20, 30, 255, 0, 255, 100, 200], 2, 1⟩ 1 =
      ⟨[10, 20, 30, 255, 0, 255, 100, 200], 2, 1⟩ :=
  ⟨by decide, claim_C8_contrast_identity ⟨[10, 20, 30, 255, 0, 255, 100, 200], 2, 1⟩ (by decide)⟩

/-! ### Box blur: window lemmas -/

theorem zero_mem_windowF {bound x : ℕ} (hx : x < bound) (r : ℕ) :
    (0 : ℤ) ∈ windowF bound x (r : ℤ) := by
  unfold windowF
  rw [Finset.mem_filter, Finset.mem_Icc]
  refine ⟨⟨?_, ?_⟩, ?_, ?_⟩ <;> omega

theorem windowF_card_pos {bound x : ℕ} (hx : x < bound) (r : ℕ) :
    0 < (windowF bound x (r : ℤ)).card :=
  Finset.card_pos.mpr ⟨0, zero_mem_windowF hx r⟩

theorem windowF_image {bound x : ℕ} (hx : x < bound) (r : ℕ) :
    (windowF bound x (r : ℤ)).image (fun dx => ((x : ℤ) + dx).toNat) =
      Finset.Icc (x - r) (min (x + r) (bound - 1)) := by
  ext n
  simp only [Finset.mem_image, windowF, Finset.mem_filter, Finset.mem_Icc]
  constructor
  · rintro ⟨dx, ⟨⟨h1, h2⟩, h3, h4⟩, h5⟩
    omega
  · rintro ⟨h1, h2⟩
    exact ⟨(n : ℤ) - (x : ℤ), by omega⟩

theorem windowF_injOn {bound x : ℕ} (r : ℤ) :
    Set.InjOn (fun dx => ((x : ℤ) + dx).toNat) (windowF bound x r) := by
  intro a ha b hb hab
  simp only [windowF, Finset.coe_filter, Finset.mem_Icc, Set.mem_setOf_eq] at ha hb
  simp only at hab
  omega

theorem windowF_card_eq {bound x : ℕ} (hx : x < bound) (r : ℕ) :
    (windowF bound x (r : ℤ)).card = (Finset.Icc (x - r) (min (x + r) (bound - 1))).card := by
  rw [← windowF_image hx r, Finset.card_image_of_injOn (windowF_injOn _)]

theorem hSum_eq_truncated {d : List ℕ} {w : ℕ} {x : ℕ} (y c : ℕ) (hx : x < w) (r : ℕ) :
    hSum d w x y c (r : ℤ) =
      (Finset.Icc (x - r) (min (x + r) (w - 1))).sum (fun n => getQ d ((y * w + n) * 4 + c)) := by
  rw [← windowF_image hx r,
    Finset.sum_image (fun a ha b hb hab => windowF_injOn _ ha hb hab)]
  rfl

theorem vSum_eq_truncated {d : List ℕ} {w h : ℕ} {y : ℕ} (x c : ℕ) (hy : y < h) (r : ℕ) :
    vSum d w h x y c (r : ℤ) =
      (Finset.Icc (y - r) (min (y + r) (h - 1))).sum (fun n => getQ d ((n * w + x) * 4 + c)) := by
  rw [← windowF_image hy r,
    Finset.sum_image (fun a ha b hb hab => windowF_injOn _ ha hb hab)]
  rfl

/-- Decoding the flat index `(y*w+x)*4+c` back to its coordinates. -/
theorem decode_idx {w h x y c : ℕ} (hx : x < w) (hy : y < h) (hc : c < 4) :
    ((y * w + x) * 4 + c) / 4 % w = x ∧ ((y * w + x) * 4 + c) / 4 / w = y ∧
    ((y * w + x) * 4 + c) % 4 = c ∧ (y * w + x) * 4 + c < w * h * 4 := by
  have h1 : ((y * w + x) * 4 + c) / 4 = y * w + x := by omega
  have h2 : ((y * w + x) * 4 + c) % 4 = c := by omega
  have h3 : (y * w + x) % w = x := by
    rw [Nat.add_comm, Nat.add_mul_mod_self_right]
    exact Nat.mod_eq_of_lt hx
  have h4 : (y * w + x) / w = y := by
    rw [Nat.add_comm, Nat.add_mul_div_right _ _ (by omega : 0 < w), Nat.div_eq_of_lt hx]
    omega
  have h5 : y * w + x < w * h := by
    calc y * w + x < y * w + w := by omega
      _ = (y + 1) * w := by ring
      _ ≤ h * w := Nat.mul_le_mul_right w hy
      _ = w * h := Nat.mul_comm h w
  exact ⟨by rw [h1, h3], by rw [h1, h4], h2, by omega⟩

theorem passH_getD {d : List ℕ} {w h : ℕ} {ρ : ℕ → ℕ → ℤ} {x y c : ℕ}
    (hx : x < w) (hy : y < h) (hc : c < 4) :
    (passH d w h ρ).getD ((y * w + x) * 4 + c) 0 =
      toU8 (hSum d w x y c (ρ x y) / ((windowF w x (ρ x y)).card : ℚ)) := by
  obtain ⟨h1, h2, h3, h4⟩ := decode_idx hx hy hc
  unfold passH
  rw [getD_map_range h4, h1, h2, h3]

theorem passV_getD {d : List ℕ} {w h : ℕ} {ρ : ℕ → ℕ → ℤ} {x y c : ℕ}
    (hx : x < w) (hy : y < h) (hc : c < 4) :
    (passV d w h ρ).getD ((y * w + x) * 4 + c) 0 =
      toU8 (vSum d w h x y c (ρ x y) / ((windowF h y (ρ x y)).card : ℚ)) := by
  obtain ⟨h1, h2, h3, h4⟩ := decode_idx hx hy hc
  unfold passV
  rw [getD_map_range h4, h1, h2, h3]

/-- Claim C6: in each blur pass the in-bounds sample count is at least one
(the window always contains the pixel itself, so the averaging division
never divides by zero), and the stored pass output is the 8-bit store of
the unweighted average over exactly the in-bounds window samples (the
positions `[x-r, min (x+r) (w-1)]`), a truncated average rather than a
zero-padded one. -/
theorem claim_C6_truncated_average (d : List ℕ) (w h r : ℕ) (x y c : ℕ)
    (hx : x < w) (hy : y < h) (hc : c < 4) :
    0 < (windowF w x (r : ℤ)).card ∧ 0 < (windowF h y (r : ℤ)).card ∧
    (passH d w h (fun _ _ => (r : ℤ))).getD ((y * w + x) * 4 + c) 0 =
      toU8 ((Finset.Icc (x - r) (min (x + r) (w - 1))).sum
          (fun n => getQ d ((y * w + n) * 4 + c)) /
        ((Finset.Icc (x - r) (min (x + r) (w - 1))).card : ℚ)) ∧
    (passV d w h (fun _ _ => (r : ℤ))).getD ((y * w + x) * 4 + c) 0 =
      toU8 ((Finset.Icc (y - r) (min (y + r) (h - 1))).sum
          (fun n => getQ d ((n * w + x) * 4 + c)) /
        ((Finset.Icc (y - r) (min (y + r) (h - 1))).card : ℚ)) := by
  refine ⟨windowF_card_pos hx r, windowF_card_pos hy r, ?_, ?_⟩
  · rw [passH_getD hx hy hc, hSum_eq_truncated y c hx r, windowF_card_eq hx r]
  · rw [passV_getD hx hy hc, vSum_eq_truncated x c hy r, windowF_card_eq hy r]

/-- Witness for C6 at a concrete corner pixel of a 2-by-2 buffer. -/
theorem claim_C6_truncated_average_witness :
    (0 : ℕ) < 2 ∧ (0 : ℕ) < 2 ∧ (0 : ℕ) < 4 ∧
    (0 < (windowF 2 0 ((1 : ℕ) : ℤ)).card ∧ 0 < (windowF 2 0 ((1 : ℕ) : ℤ)).card ∧
      (passH [10, 0, 0, 255, 250, 0, 0, 255, 30, 0, 0, 255, 90, 0, 0, 255] 2 2
          (fun _ _ => ((1 : ℕ) : ℤ))).getD ((0 * 2 + 0) * 4 + 0) 0 =
        toU8 ((Finset.Icc (0 - 1) (min (0 + 1) (2 - 1))).sum
            (fun n => getQ [10, 0, 0, 255, 250, 0, 0, 255, 30, 0, 0, 255, 90, 0, 0, 255]
              ((0 * 2 + n) * 4 + 0)) /
          ((Finset.Icc (0 - 1) (min (0 + 1) (2 - 1))).card : ℚ)) ∧
      (passV [10, 0, 0, 255, 250, 0, 0, 255, 30, 0, 0, 255, 90, 0, 0, 255] 2 2
          (fun _ _ => ((1 : ℕ) : ℤ))).getD ((0 * 2 + 0) * 4 + 0) 0 =
        toU8 ((Finset.Icc (0 - 1) (min (0 + 1) (2 - 1))).sum
            (fun n => getQ [10, 0, 0, 255, 250, 0, 0, 255, 30, 0, 0, 255, 90, 0, 0, 255]
              ((n * 2 + 0) * 4 + 0)) /
          ((Finset.Icc (0 - 1) (min (0 + 1) (2 - 1))).card : ℚ))) :=
  ⟨by decide, by decide, by decide,
    claim_C6_truncated_average [10, 0, 0, 255, 250, 0, 0, 255, 30, 0, 0, 255, 90, 0, 0, 255]
      2 2 1 0 0 0 (by decide) (by decide) (by decide)⟩

theorem encode_idx {w h i : ℕ} (hi : i < w * h * 4) :
    i / 4 % w < w ∧ i / 4 / w < h ∧ i % 4 < 4 ∧
    ((i / 4 / w) * w + i / 4 % w) * 4 + i % 4 = i := by
  have hw : 0 < w := by
    rcases Nat.eq_zero_or_pos w with h0 | h0
    · subst h0; simp at hi
    · exact h0
  have hp : i / 4 < w * h := by omega
  have e1 : w * (i / 4 / w) + i / 4 % w = i / 4 := Nat.div_add_mod (i / 4) w
  refine ⟨Nat.mod_lt _ hw, ?_, by omega, ?_⟩
  · rw [Nat.div_lt_iff_lt_mul hw]
    calc i / 4 < w * h := hp
      _ = h * w := Nat.mul_comm w h
  · rw [mul_comm (i / 4 / w) w, e1]; omega

theorem windowF_zero {bound x : ℕ} (hx : x < bound) :
    windowF bound x ((0 : ℕ) : ℤ) = {0} := by
  ext dx
  simp only [windowF, Finset.mem_filter, Finset.mem_Icc, Finset.mem_singleton,
    Nat.cast_zero, neg_zero]
  omega

theorem getQ_le_255 {d : List ℕ} (hdata : ∀ v ∈ d, v ≤ 255) (i : ℕ) :
    getQ d i = ((d.getD i 0 : ℕ) : ℚ) ∧ d.getD i 0 ≤ 255 := by
  refine ⟨rfl, ?_⟩
  by_cases hi : i < d.length
  · rw [List.getD_eq_getElem d 0 hi]
    exact hdata _ (List.getElem_mem hi)
  · rw [List.getD_eq_default d 0 (by omega)]
    omega

theorem toU8_getQ {d : List ℕ} (hdata : ∀ v ∈ d, v ≤ 255) (i : ℕ) :
    toU8 (getQ d i) = d.getD i 0 := by
  obtain ⟨h1, h2⟩ := getQ_le_255 hdata i
  rw [h1, toU8_natCast h2]

theorem passH_zero_getD {d : List ℕ} {w h : ℕ} {x y c : ℕ}
    (hx : x < w) (hy : y < h) (hc : c < 4) (hdata : ∀ v ∈ d, v ≤ 255) :
    (passH d w h (fun _ _ => ((0 : ℕ) : ℤ))).getD ((y * w + x) * 4 + c) 0 =
      d.getD ((y * w + x) * 4 + c) 0 := by
  rw [passH_getD hx hy hc, windowF_zero hx]
  unfold hSum
  rw [windowF_zero hx]
  simp only [Finset.sum_singleton, Finset.card_singleton, Nat.cast_one, div_one,
    add_zero, Int.toNat_natCast]
  exact toU8_getQ hdata _

theorem passV_zero_getD {d : List ℕ} {w h : ℕ} {x y c : ℕ}
    (hx : x < w) (hy : y < h) (hc : c < 4) (hdata : ∀ v ∈ d, v ≤ 255) :
    (passV d w h (fun _ _ => ((0 : ℕ) : ℤ))).getD ((y * w + x) * 4 + c) 0 =
      d.getD ((y * w + x) * 4 + c) 0 := by
  rw [passV_getD hx hy hc, windowF_zero hy]
  unfold vSum
  rw [windowF_zero hy]
  simp only [Finset.sum_singleton, Finset.card_singleton, Nat.cast_one, div_one,
    add_zero, Int.toNat_natCast]
  exact toU8_getQ hdata _

theorem passH_le_255 {d : List ℕ} {w h : ℕ} {ρ : ℕ → ℕ → ℤ} :
    ∀ v ∈ passH d w h ρ, v ≤ 255 := by
  intro v hv
  unfold passH at hv
  rw [List.mem_map] at hv
  obtain ⟨i, _, hi⟩ := hv
  rw [← hi]
  exact toU8_le_255 _

theorem passV_le_255 {d : List ℕ} {w h : ℕ} {ρ : ℕ → ℕ → ℤ} :
    ∀ v ∈ passV d w h ρ, v ≤ 255 := by
  intro v hv
  unfold passV at hv
  rw [List.mem_map] at hv
  obtain ⟨i, _, hi⟩ := hv
  rw [← hi]
  exact toU8_le_255 _

/-- Claim C10: the fixed-radius box blur with radius 0 returns a buffer
equal to its input (each window is the singleton containing the pixel
itself, so both passes are the identity). -/
theorem claim_C10_blur_radius_zero (img : ImageData)
    (hlen : img.data.length = img.width * img.height * 4)
    (hdata : ∀ v ∈ img.data, v ≤ 255) :
    boxBlurImageData img 0 = img := by
  obtain ⟨d, w, h⟩ := img
  simp only at hlen hdata
  unfold boxBlurImageData
  simp only
  congr 1
  apply List.ext_getElem
  · simpa [passV, passH] using hlen.symm
  · intro i h1 h2
    have hi : i < w * h * 4 := by simpa [passV, passH] using h1
    obtain ⟨hx, hy, hc, he⟩ := encode_idx hi
    have hgd : ∀ (l : List ℕ) (hl : i < l.length), l[i] = l.getD i 0 :=
      fun l hl => (List.getD_eq_getElem l 0 hl).symm
    rw [hgd _ h1, hgd _ h2, ← he]
    rw [passV_zero_getD hx hy hc passH_le_255, passH_zero_getD hx hy hc hdata]

/-- Witness for C10 at a concrete buffer. -/
theorem claim_C10_blur_radius_zero_witness :
    ([7, 80, 200, 255, 0, 255, 13, 254] : List ℕ).length = 2 * 1 * 4 ∧
    (∀ v ∈ ([7, 80, 200, 255, 0, 255, 13, 254] : List ℕ), v ≤ 255) ∧
    boxBlurImageData ⟨[7, 80, 200, 255, 0, 255, 13, 254], 2, 1⟩ 0 =
      ⟨[7, 80, 200, 255, 0, 255, 13, 254], 2, 1⟩ :=
  ⟨by decide, by decide,
    claim_C10_blur_radius_zero ⟨[7, 80, 200, 255, 0, 255, 13, 254], 2, 1⟩
      (by decide) (by decide)⟩

theorem passH_uniform {d : List ℕ} {w h : ℕ} {pix : ℕ → ℕ} (r : ℕ)
    (hpix : ∀ c < 4, pix c ≤ 255)
    (hud : ∀ i < w * h * 4, d.getD i 0 = pix (i % 4)) :
    ∀ i < w * h * 4, (passH d w h (fun _ _ => (r : ℤ))).getD i 0 = pix (i % 4) := by
  intro i hi
  obtain ⟨hx, hy, hc, he⟩ := encode_idx hi
  rw [← he, passH_getD hx hy hc]
  have hterm : ∀ dx ∈ windowF w (i / 4 % w) (r : ℤ),
      getQ d ((i / 4 / w * w + (((i / 4 % w : ℕ) : ℤ) + dx).toNat) * 4 + i % 4) =
        ((pix (i % 4) : ℕ) : ℚ) := by
    intro dx hdx
    simp only [windowF, Finset.mem_filter, Finset.mem_Icc] at hdx
    obtain ⟨⟨_, _⟩, hnx0, hnxw⟩ := hdx
    set nx := (((i / 4 % w : ℕ) : ℤ) + dx).toNat with hnx
    have hnxlt : nx < w := by omega
    obtain ⟨_, _, hmod, hbound⟩ := decode_idx hnxlt hy hc
    unfold getQ
    rw [hud _ hbound, hmod]
  unfold hSum
  rw [Finset.sum_congr rfl hterm, Finset.sum_const, nsmul_eq_mul]
  have hcard : ((windowF w (i / 4 % w) (r : ℤ)).card : ℚ) ≠ 0 := by
    have := windowF_card_pos hx r
    positivity
  rw [mul_div_cancel_left₀ _ hcard, toU8_natCast (hpix _ hc)]
  congr 1
  omega

theorem passV_uniform {d : List ℕ} {w h : ℕ} {pix : ℕ → ℕ} (r : ℕ)
    (hpix : ∀ c < 4, pix c ≤ 255)
    (hud : ∀ i < w * h * 4, d.getD i 0 = pix (i % 4)) :
    ∀ i < w * h * 4, (passV d w h (fun _ _ => (r : ℤ))).getD i 0 = pix (i % 4) := by
  intro i hi
  obtain ⟨hx, hy, hc, he⟩ := encode_idx hi
  rw [← he, passV_getD hx hy hc]
  have hterm : ∀ dy ∈ windowF h (i / 4 / w) (r : ℤ),
      getQ d (((((i / 4 / w : ℕ) : ℤ) + dy).toNat * w + i / 4 % w) * 4 + i % 4) =
        ((pix (i % 4) : ℕ) : ℚ) := by
    intro dy hdy
    simp only [windowF, Finset.mem_filter, Finset.mem_Icc] at hdy
    obtain ⟨⟨_, _⟩, hny0, hnyh⟩ := hdy
    set ny := (((i / 4 / w : ℕ) : ℤ) + dy).toNat with hny
    have hnylt : ny < h := by omega
    obtain ⟨_, _, hmod, hbound⟩ := decode_idx hx hnylt hc
    unfold getQ
    rw [hud _ hbound, hmod]
  unfold vSum
  rw [Finset.sum_congr rfl hterm, Finset.sum_const, nsmul_eq_mul]
  have hcard : ((windowF h (i / 4 / w) (r : ℤ)).card : ℚ) ≠ 0 := by
    have := windowF_card_pos hy r
    positivity
  rw [mul_div_cancel_left₀ _ hcard, toU8_natCast (hpix _ hc)]
  congr 1
  omega

/-- Claim C5: on a uniform-colour buffer (all pixels equal, channel values
in `[0,255]`) the fixed-radius box blur is the identity, for every radius
and every pixel including borders and corners. -/
theorem claim_C5_blur_uniform (img : ImageData) (r : ℕ) (pix : ℕ → ℕ)
    (hlen : img.data.length = img.width * img.height * 4)
    (hpix : ∀ c < 4, pix c ≤ 255)
    (hunif : ∀ i < img.width * img.height * 4, img.data.getD i 0 = pix (i % 4)) :
    boxBlurImageData img r = img := by
  obtain ⟨d, w, h⟩ := img
  simp only at hlen hunif
  unfold boxBlurImageData
  simp only
  congr 1
  apply List.ext_getElem
  · simpa [passV, passH] using hlen.symm
  · intro i h1 h2
    have hi : i < w * h * 4 := by simpa [passV, passH] using h1
    have hgd : ∀ (l : List ℕ) (hl : i < l.length), l[i] = l.getD i 0 :=
      fun l hl => (List.getD_eq_getElem l 0 hl).symm
    rw [hgd _ h1, hgd _ h2]
    rw [passV_uniform r hpix (passH_uniform r hpix hunif) i hi, hunif i hi]

/-- Witness for C5 at a concrete uniform 2-by-2 buffer with radius 3. -/
theorem claim_C5_blur_uniform_witness :
    ([10, 20, 30, 255, 10, 20, 30, 255, 10, 20, 30, 255, 10, 20, 30, 255] : List ℕ).length =
      2 * 2 * 4 ∧
    (∀ c < 4, ([10, 20, 30, 255] : List ℕ).getD c 0 ≤ 255) ∧
    (∀ i < 2 * 2 * 4,
      ([10, 20, 30, 255, 10, 20, 30, 255, 10, 20, 30, 255, 10, 20, 30, 255] : List ℕ).getD i 0 =
        ([10, 20, 30, 255] : List ℕ).getD (i % 4) 0) ∧
    boxBlurImageData
        ⟨[10, 20, 30, 255, 10, 20, 30, 255, 10, 20, 30, 255, 10, 20, 30, 255], 2, 2⟩ 3 =
      ⟨[10, 20, 30, 255, 10, 20, 30, 255, 10, 20, 30, 255, 10, 20, 30, 255], 2, 2⟩ :=
  ⟨by decide, by decide, by decide,
    claim_C5_blur_uniform
      ⟨[10, 20, 30, 255, 10, 20, 30, 255, 10, 20, 30, 255, 10, 20, 30, 255], 2, 2⟩ 3
      (fun c => ([10, 20, 30, 255] : List ℕ).getD c 0)
      (by decide) (by decide) (by decide)⟩

/-! ### Blur map bounds -/

theorem sin_ratCast_ne_one (q : ℚ) : Real.sin (q : ℝ) ≠ 1 := by
  intro h
  rw [Real.sin_eq_one_iff] at h
  obtain ⟨k, hk⟩ := h
  have hden : (1 : ℚ) / 2 + 2 * (k : ℚ) ≠ 0 := by
    intro h0
    have : (1 : ℚ) + 4 * (k : ℚ) = 0 := by linarith
    have : (1 : ℤ) + 4 * k = 0 := by exact_mod_cast this
    omega
  refine irrational_pi ⟨q / (1 / 2 + 2 * (k : ℚ)), ?_⟩
  have hdenR : (1 : ℝ) / 2 + 2 * (k : ℝ) ≠ 0 := by
    intro h0
    apply hden
    have : ((1 / 2 + 2 * (k : ℚ) : ℚ) : ℝ) = 0 := by push_cast; linarith
    exact_mod_cast this
  have hπ : Real.pi * (1 / 2 + 2 * (k : ℝ)) = (q : ℝ) := by ring_nf; ring_nf at hk; linarith
  push_cast
  rw [div_eq_iff hdenR]
  linarith [hπ]

theorem abs_sin_mul_cos_le_one (a b : ℝ) : |Real.sin a * Real.cos b| ≤ 1 := by
  rw [abs_mul]
  calc |Real.sin a| * |Real.cos b| ≤ 1 * 1 :=
        mul_le_mul (Real.abs_sin_le_one a) (Real.abs_cos_le_one b) (abs_nonneg _) zero_le_one
    _ = 1 := mul_one 1

theorem blurNoise_mem (x y : ℕ) : -3 ≤ blurNoise x y ∧ blurNoise x y ≤ 3 := by
  unfold blurNoise
  have h1 := abs_sin_mul_cos_le_one ((x : ℝ) * 0.01 * 0.5) ((y : ℝ) * 0.01 * 0.7)
  have h2 := abs_sin_mul_cos_le_one ((x : ℝ) * 0.01 * 1.3) ((y : ℝ) * 0.01 * 1.1)
  have h3a := Real.neg_one_le_sin ((x : ℝ) * 0.01 * 2.3 + (y : ℝ) * 0.01 * 1.5)
  have h3b := Real.sin_le_one ((x : ℝ) * 0.01 * 2.3 + (y : ℝ) * 0.01 * 1.5)
  rw [abs_le] at h1 h2
  constructor <;> linarith [h1.1, h1.2, h2.1, h2.2]

theorem blurNoise_lt_three (x y : ℕ) : blurNoise x y < 3 := by
  unfold blurNoise
  have h1 := abs_sin_mul_cos_le_one ((x : ℝ) * 0.01 * 0.5) ((y : ℝ) * 0.01 * 0.7)
  have h2 := abs_sin_mul_cos_le_one ((x : ℝ) * 0.01 * 1.3) ((y : ℝ) * 0.01 * 1.1)
  rw [abs_le] at h1 h2
  have harg : (x : ℝ) * 0.01 * 2.3 + (y : ℝ) * 0.01 * 1.5 =
      (((x : ℚ) * 0.01 * 2.3 + (y : ℚ) * 0.01 * 1.5 : ℚ) : ℝ) := by
    push_cast
    norm_num
  have h3b := Real.sin_le_one ((x : ℝ) * 0.01 * 2.3 + (y : ℝ) * 0.01 * 1.5)
  have h3ne : Real.sin ((x : ℝ) * 0.01 * 2.3 + (y : ℝ) * 0.01 * 1.5) ≠ 1 := by
    rw [harg]
    exact sin_ratCast_ne_one _
  have h3 : Real.sin ((x : ℝ) * 0.01 * 2.3 + (y : ℝ) * 0.01 * 1.5) < 1 :=
    lt_of_le_of_ne h3b h3ne
  linarith [h1.2, h2.2]

/-- Claim C3, amended: for `0 ≤ minRadius ≤ maxRadius` every generated
radius lies in the closed interval `[minRadius, maxRadius]`, and whenever
`minRadius < maxRadius` the radius is strictly below `maxRadius` (the
noise sum is strictly below its supremum 3 at every integer pixel, by
irrationality of pi). -/
theorem claim_C3_blurmap_bounds (w h minRadius maxRadius i : ℕ)
    (hmm : minRadius ≤ maxRadius) :
    (minRadius : ℤ) ≤ generateBlurMap w h minRadius maxRadius i ∧
    generateBlurMap w h minRadius maxRadius i ≤ (maxRadius : ℤ) ∧
    (minRadius < maxRadius → generateBlurMap w h minRadius maxRadius i < (maxRadius : ℤ)) := by
  unfold generateBlurMap
  set x := i % w
  set y := i / w
  obtain ⟨hlo, hhi⟩ := blurNoise_mem x y
  have hstrict := blurNoise_lt_three x y
  have hnn0 : 0 ≤ (blurNoise x y + 3) / 6 := by linarith
  have hnn1 : (blurNoise x y + 3) / 6 ≤ 1 := by linarith
  have hd0 : (0 : ℝ) ≤ (maxRadius : ℝ) - (minRadius : ℝ) := by
    have : (minRadius : ℝ) ≤ (maxRadius : ℝ) := by exact_mod_cast hmm
    linarith
  refine ⟨?_, ?_, ?_⟩
  · rw [Int.le_floor]
    push_cast
    nlinarith
  · have hval : (minRadius : ℝ) + (blurNoise x y + 3) / 6 * ((maxRadius : ℝ) - (minRadius : ℝ)) ≤
        (maxRadius : ℝ) := by nlinarith
    have := Int.floor_le_floor hval
    rwa [Int.floor_natCast] at this
  · intro hlt
    rw [Int.floor_lt]
    have hdpos : (0 : ℝ) < (maxRadius : ℝ) - (minRadius : ℝ) := by
      have : (minRadius : ℝ) < (maxRadius : ℝ) := by exact_mod_cast hlt
      linarith
    have hnnlt : (blurNoise x y + 3) / 6 < 1 := by linarith
    push_cast
    nlinarith

/-- Witness for C3 at concrete arguments. -/
theorem claim_C3_blurmap_bounds_witness :
    (2 : ℕ) ≤ 7 ∧
    ((2 : ℤ) ≤ generateBlurMap 4 4 2 7 5 ∧
      generateBlurMap 4 4 2 7 5 ≤ (7 : ℤ) ∧
      ((2 : ℕ) < 7 → generateBlurMap 4 4 2 7 5 < (7 : ℤ))) :=
  ⟨by decide, claim_C3_blurmap_bounds 4 4 2 7 5 (by decide)⟩

/-- Counterexample to Claim C3 as stated: with `minRadius = maxRadius = 5`
(allowed by the claim, which only requires `0 ≤ minRadius ≤ maxRadius`)
the generated radius equals `maxRadius`, so it is not strictly below
`maxRadius`. -/
theorem claim_C3_counterexample :
    generateBlurMap 1 1 5 5 0 = 5 ∧ ¬(generateBlurMap 1 1 5 5 0 < 5) := by
  have hb : blurNoise 0 0 = 0 := by
    unfold blurNoise
    norm_num
  have h : generateBlurMap 1 1 5 5 0 = 5 := by
    unfold generateBlurMap
    norm_num [hb]
  exact ⟨h, by rw [h]; omega⟩

/-- Claim C7: in the variable-radius blur both passes use, at destination
pixel `(x, y)`, the blur-map value at `(x, y)` itself as the window
half-width; in particular the vertical pass at `(x, y)` averages the
intermediate buffer with radius `blurMap[y*width + x]`, not with the map
values at the intermediate source pixels. -/
theorem claim_C7_variable_blur_destination_radius (img : ImageData)
    (minRadius maxRadius x y c : ℕ)
    (hx : x < img.width) (hy : y < img.height) (hc : c < 4) :
    (variableBoxBlurImageData img minRadius maxRadius).data.getD
        ((y * img.width + x) * 4 + c) 0 =
      toU8 (vSum (passH img.data img.width img.height
            (fun x y => generateBlurMap img.width img.height minRadius maxRadius
              (y * img.width + x)))
          img.width img.height x y c
          (generateBlurMap img.width img.height minRadius maxRadius (y * img.width + x)) /
        ((windowF img.height y
            (generateBlurMap img.width img.height minRadius maxRadius
              (y * img.width + x))).card : ℚ)) ∧
    (passH img.data img.width img.height
        (fun x y => generateBlurMap img.width img.height minRadius maxRadius
          (y * img.width + x))).getD ((y * img.width + x) * 4 + c) 0 =
      toU8 (hSum img.data img.width x y c
          (generateBlurMap img.width img.height minRadius maxRadius (y * img.width + x)) /
        ((windowF img.width x
            (generateBlurMap img.width img.height minRadius maxRadius
              (y * img.width + x))).card : ℚ)) := by
  exact ⟨@passV_getD (passH img.data img.width img.height
      (fun x y => generateBlurMap img.width img.height minRadius maxRadius (y * img.width + x)))
      img.width img.height
      (fun x y => generateBlurMap img.width img.height minRadius maxRadius
        (y * img.width + x)) x y c hx hy hc,
    @passH_getD img.data img.width img.height
      (fun x y => generateBlurMap img.width img.height minRadius maxRadius
        (y * img.width + x)) x y c hx hy hc⟩

/-- Witness for C7 at a concrete buffer and pixel. -/
theorem claim_C7_variable_blur_destination_radius_witness :
    (0 : ℕ) < 1 ∧ (0 : ℕ) < 1 ∧ (0 : ℕ) < 4 ∧
    ((variableBoxBlurImageData ⟨[9, 9, 9, 255], 1, 1⟩ 2 6).data.getD
        ((0 * 1 + 0) * 4 + 0) 0 =
      toU8 (vSum (passH [9, 9, 9, 255] 1 1
            (fun x y => generateBlurMap 1 1 2 6 (y * 1 + x))) 1 1 0 0 0
          (generateBlurMap 1 1 2 6 (0 * 1 + 0)) /
        ((windowF 1 0 (generateBlurMap 1 1 2 6 (0 * 1 + 0))).card : ℚ)) ∧
    (passH [9, 9, 9, 255] 1 1
        (fun x y => generateBlurMap 1 1 2 6 (y * 1 + x))).getD ((0 * 1 + 0) * 4 + 0) 0 =
      toU8 (hSum [9, 9, 9, 255] 1 0 0 0 (generateBlurMap 1 1 2 6 (0 * 1 + 0)) /
        ((windowF 1 0 (generateBlurMap 1 1 2 6 (0 * 1 + 0))).card : ℚ))) :=
  ⟨by decide, by decide, by decide,
    claim_C7_variable_blur_destination_radius ⟨[9, 9, 9, 255], 1, 1⟩ 2 6 0 0 0
      (by decide) (by decide) (by decide)⟩

/-! ### Dithering: missing validation at shades = 1 (C1) and alpha/noise lemmas -/

/-- Claim C1 concerns the code as written: `floydSteinbergDitherImageData`
performs no validation of `shades` at entry.  With `shades = 1` the step
size divides by zero, yet the function still runs the whole scan and
returns a complete output buffer (in JavaScript `step` is `Infinity`, the
quantised channels become `NaN`, and the `Uint8ClampedArray` store turns
them into `0`; in this exact-arithmetic model the division by zero yields
a zero step with the same all-black final bytes).  This theorem evaluates
the dithering stage at the failing input `shades = 1` on a 1-by-1 buffer:
a full buffer with zeroed colour channels is produced, contradicting the
specified fail-fast rejection with no partial output. -/
theorem diffuseTo_apply (cond : Prop) [Decidable cond] (t : ℕ) (inc : ℚ) (a : ℕ → ℚ)
    (j : ℕ) : diffuseTo cond t inc a j = if cond ∧ j = t then a j + inc else a j := by
  by_cases hcond : cond
  · by_cases hj : j = t
    · subst hj
      simp [diffuseTo, hcond]
    · simp [diffuseTo, hcond, hj, Function.update_apply]
  · simp [diffuseTo, hcond]

theorem diffuseTo_neg {cond : Prop} [Decidable cond] (h : ¬cond) (t : ℕ) (inc : ℚ)
    (a : ℕ → ℚ) : diffuseTo cond t inc a = a := by
  unfold diffuseTo
  rw [if_neg h]

theorem ditherChannelStep_onepixel (step : ℚ) (c : ℕ) (a : ℕ → ℚ) :
    ditherChannelStep 1 1 step 0 0 c a =
      Function.update a c ((round (a c / step) : ℚ) * step) := by
  unfold ditherChannelStep
  rw [diffuseTo_neg (by omega), diffuseTo_neg (by omega), diffuseTo_neg (by omega),
    diffuseTo_neg (by omega)]
  norm_num

theorem ditherFloats_onepixel (d : List ℕ) (shades : ℕ) (j : ℕ) :
    ditherFloats ⟨d, 1, 1⟩ shades j =
      if j < 3 then
        (round (getQ d j / ditherStepSize shades) : ℚ) * ditherStepSize shades
      else getQ d j := by
  unfold ditherFloats
  simp only [show List.range 1 = [0] from rfl, show List.range 3 = [0, 1, 2] from rfl,
    List.foldl_cons, List.foldl_nil]
  rw [ditherChannelStep_onepixel, ditherChannelStep_onepixel, ditherChannelStep_onepixel]
  simp only [Function.update_apply, show (1 : ℕ) ≠ 0 from by omega,
    show (2 : ℕ) ≠ 0 from by omega, show (2 : ℕ) ≠ 1 from by omega, if_false, ite_false]
  by_cases h0 : j = 0
  · subst h0; norm_num
  · by_cases h1 : j = 1
    · subst h1; norm_num
    · by_cases h2 : j = 2
      · subst h2; norm_num
      · have hj : ¬(j < 3) := by omega
        simp [h0, h1, h2, hj]

theorem claim_C1_shades_one_not_rejected :
    floydSteinbergDitherImageData ⟨[100, 150, 200, 255], 1, 1⟩ 1 =
      ⟨[0, 0, 0, 255], 1, 1⟩ := by
  have hstep : ditherStepSize 1 = 0 := by unfold ditherStepSize; norm_num
  have hval : ∀ j < 4, ditherFloats ⟨[100, 150, 200, 255], 1, 1⟩ 1 j =
      if j < 3 then 0 else 255 := by
    intro j hj
    rw [ditherFloats_onepixel, hstep]
    by_cases h : j < 3
    · simp [h]
    · have hj3 : j = 3 := by omega
      subst hj3
      norm_num [getQ]
  have ht0 : toU8 0 = 0 := by
    have h : toU8 ((0 : ℕ) : ℚ) = (0 : ℕ) := toU8_natCast (by omega)
    simpa using h
  have ht255 : toU8 255 = 255 := by
    have h : toU8 ((255 : ℕ) : ℚ) = (255 : ℕ) := toU8_natCast (by omega)
    simpa using h
  unfold floydSteinbergDitherImageData
  simp only
  congr 1
  simp only [show ([100, 150, 200, 255] : List ℕ).length = 4 from rfl,
    show List.range 4 = [0, 1, 2, 3] from rfl, List.map_cons, List.map_nil]
  rw [hval 0 (by omega), hval 1 (by omega), hval 2 (by omega), hval 3 (by omega)]
  norm_num [ht0, ht255]

/-- Claim C4: after noise compositing, every channel sample of every pixel
lies in `[0, 255]` (the output samples are 8-bit naturals, hence at least
0, and at most 255), for every opacity, every scale and every realisation
of the two random streams; the buffer shape is preserved. -/
theorem claim_C4_noise_output_bounds (img : ImageData) (opacity scale : ℚ)
    (rand1 rand2 : ℕ → ℚ) (i : ℕ) (hi : i < img.data.length)
    (hdata : ∀ v ∈ img.data, v ≤ 255) :
    (applyNoise img opacity scale rand1 rand2).data.getD i 0 ≤ 255 ∧
    (applyNoise img opacity scale rand1 rand2).data.length = img.data.length := by
  constructor
  · unfold applyNoise
    rw [getD_map_range hi]
    by_cases hc : i % 4 < 3
    · simp only [hc, if_true]
      exact toU8_le_255 _
    · simp only [hc, if_false]
      exact (getQ_le_255 hdata i).2
  · unfold applyNoise
    simp

/-- Witness for C4 at a concrete buffer, opacity, scale and random streams. -/
theorem claim_C4_noise_output_bounds_witness :
    (0 : ℕ) < ([255, 2, 3, 200] : List ℕ).length ∧
    (∀ v ∈ ([255, 2, 3, 200] : List ℕ), v ≤ 255) ∧
    ((applyNoise ⟨[255, 2, 3, 200], 1, 1⟩ (1/2) 12 (fun _ => 0) (fun _ => 0)).data.getD 0 0 ≤ 255 ∧
      (applyNoise ⟨[255, 2, 3, 200], 1, 1⟩ (1/2) 12 (fun _ => 0) (fun _ => 0)).data.length =
        ([255, 2, 3, 200] : List ℕ).length) :=
  ⟨by decide, by decide,
    claim_C4_noise_output_bounds ⟨[255, 2, 3, 200], 1, 1⟩ (1/2) 12 (fun _ => 0) (fun _ => 0) 0
      (by decide) (by decide)⟩

theorem foldl_preserves {α : Type} {f : (ℕ → ℚ) → α → (ℕ → ℚ)} (P : (ℕ → ℚ) → Prop) :
    ∀ (l : List α) (a : ℕ → ℚ), P a → (∀ b x, x ∈ l → P b → P (f b x)) → P (l.foldl f a) := by
  intro l
  induction l with
  | nil => intro a hP _; exact hP
  | cons hd tl ih =>
    intro a hP hf
    exact ih _ (hf _ _ (List.mem_cons_self hd tl) hP)
      (fun b x hx hb => hf b x (List.mem_cons_of_mem hd hx) hb)

theorem ditherChannelStep_alpha {w h : ℕ} {step : ℚ} {y x c : ℕ} (hc : c < 3)
    (a : ℕ → ℚ) {j : ℕ} (hj : j % 4 = 3) :
    ditherChannelStep w h step y x c a j = a j := by
  unfold ditherChannelStep
  have h1 : ¬(j = (y * w + x) * 4 + c) := by omega
  have h2 : ¬((x + 1 < w) ∧ j = (y * w + x) * 4 + 4 + c) := by omega
  have h3 : ¬((1 ≤ x ∧ y + 1 < h) ∧ j = (y * w + x) * 4 + w * 4 + c - 4) := by omega
  have h4 : ¬((y + 1 < h) ∧ j = (y * w + x) * 4 + w * 4 + c) := by omega
  have h5 : ¬((x + 1 < w ∧ y + 1 < h) ∧ j = (y * w + x) * 4 + 4 + w * 4 + c) := by omega
  rw [diffuseTo_apply, if_neg h5, diffuseTo_apply, if_neg h4, diffuseTo_apply, if_neg h3,
    diffuseTo_apply, if_neg h2, Function.update_apply, if_neg h1]

theorem ditherFloats_alpha (img : ImageData) (shades : ℕ) {j : ℕ} (hj : j % 4 = 3) :
    ditherFloats img shades j = getQ img.data j := by
  unfold ditherFloats
  refine foldl_preserves (fun a => a j = getQ img.data j) _ _ rfl ?_
  intro b y _ hb
  refine foldl_preserves (fun a => a j = getQ img.data j) _ _ hb ?_
  intro b' x _ hb'
  refine foldl_preserves (fun a => a j = getQ img.data j) _ _ hb' ?_
  intro b'' c hcmem hb''
  rw [ditherChannelStep_alpha (List.mem_range.mp hcmem) b'' hj, hb'']

/-- Claim C9: the contrast, dithering and noise-compositing stages each
leave the alpha channel unchanged: the alpha sample of every output pixel
equals the alpha sample of the corresponding input pixel. -/
theorem claim_C9_alpha_unchanged (img : ImageData) (factor : ℚ) (shades : ℕ)
    (opacity scale : ℚ) (rand1 rand2 : ℕ → ℚ) (p : ℕ)
    (hp : 4 * p + 3 < img.data.length)
    (halpha : img.data.getD (4 * p + 3) 0 ≤ 255) :
    (enhanceContrast img factor).data.getD (4 * p + 3) 0 = img.data.getD (4 * p + 3) 0 ∧
    (floydSteinbergDitherImageData img shades).data.getD (4 * p + 3) 0 =
      img.data.getD (4 * p + 3) 0 ∧
    (applyNoise img opacity scale rand1 rand2).data.getD (4 * p + 3) 0 =
      img.data.getD (4 * p + 3) 0 := by
  have hmod : (4 * p + 3) % 4 = 3 := by omega
  have hnotc : ¬((4 * p + 3) % 4 < 3) := by omega
  refine ⟨?_, ?_, ?_⟩
  · unfold enhanceContrast
    rw [getD_map_range hp]
    simp only [hnotc, if_false]
  · unfold floydSteinbergDitherImageData
    rw [getD_map_range hp, ditherFloats_alpha img shades hmod]
    unfold getQ
    exact toU8_natCast halpha
  · unfold applyNoise
    rw [getD_map_range hp]
    simp only [hnotc, if_false]

/-- Witness for C9 at a concrete buffer and stage parameters. -/
theorem claim_C9_alpha_unchanged_witness :
    4 * 0 + 3 < ([1, 2, 3, 200] : List ℕ).length ∧
    ([1, 2, 3, 200] : List ℕ).getD (4 * 0 + 3) 0 ≤ 255 ∧
    ((enhanceContrast ⟨[1, 2, 3, 200], 1, 1⟩ 2).data.getD (4 * 0 + 3) 0 =
        ([1, 2, 3, 200] : List ℕ).getD (4 * 0 + 3) 0 ∧
      (floydSteinbergDitherImageData ⟨[1, 2, 3, 200], 1, 1⟩ 5).data.getD (4 * 0 + 3) 0 =
        ([1, 2, 3, 200] : List ℕ).getD (4 * 0 + 3) 0 ∧
      (applyNoise ⟨[1, 2, 3, 200], 1, 1⟩ (1/2) 12 (fun _ => 0) (fun _ => 0)).data.getD
          (4 * 0 + 3) 0 =
        ([1, 2, 3, 200] : List ℕ).getD (4 * 0 + 3) 0) :=
  ⟨by decide, by decide,
    claim_C9_alpha_unchanged ⟨[1, 2, 3, 200], 1, 1⟩ 2 5 (1/2) 12 (fun _ => 0) (fun _ => 0) 0
      (by decide) (by decide)⟩

/-! ### Dithering scan invariant: helper lemmas -/

theorem pixel_inj {w x x' y y' : ℕ} (hx : x < w) (hx' : x' < w)
    (h : y * w + x = y' * w + x') : y = y' ∧ x = x' := by
  have h1 : (y * w + x) % w = x := by
    rw [Nat.add_comm, Nat.add_mul_mod_self_right]
    exact Nat.mod_eq_of_lt hx
  have h2 : (y' * w + x') % w = x' := by
    rw [Nat.add_comm, Nat.add_mul_mod_self_right]
    exact Nat.mod_eq_of_lt hx'
  have h3 : (y * w + x) / w = y := by
    rw [Nat.add_comm, Nat.add_mul_div_right _ _ (by omega : 0 < w), Nat.div_eq_of_lt hx]
    omega
  have h4 : (y' * w + x') / w = y' := by
    rw [Nat.add_comm, Nat.add_mul_div_right _ _ (by omega : 0 < w), Nat.div_eq_of_lt hx']
    omega
  constructor
  · rw [← h3, ← h4, h]
  · rw [← h1, ← h2, h]

theorem cell_inj {w x x' y y' c c' : ℕ} (hx : x < w) (hx' : x' < w)
    (hc : c < 4) (hc' : c' < 4)
    (h : (y * w + x) * 4 + c = (y' * w + x') * 4 + c') :
    y = y' ∧ x = x' ∧ c = c' := by
  have hp : y * w + x = y' * w + x' ∧ c = c' := by omega
  obtain ⟨hy, hxx⟩ := pixel_inj hx hx' hp.1
  exact ⟨hy, hxx, hp.2⟩

theorem round_le_of_lt {z : ℚ} {n : ℤ} (h : z < (n : ℚ) + 1/2) : round z ≤ n := by
  rw [round_eq]
  have hfl : ⌊z + 1/2⌋ < n + 1 := by
    rw [Int.floor_lt]
    push_cast
    linarith
  omega

theorem round_nonneg_of_le {z : ℚ} (h : -(1/2 : ℚ) ≤ z) : 0 ≤ round z := by
  rw [round_eq]
  apply Int.le_floor.mpr
  push_cast
  linarith

theorem err_abs_le {step v : ℚ} (hstep : 0 < step) :
    |v - (round (v / step) : ℚ) * step| ≤ step / 2 := by
  set z := v / step with hz
  have hv : v = z * step := by
    rw [hz]
    field_simp
  have h1 : (round z : ℚ) ≤ z + 1/2 := by
    rw [round_eq]
    exact Int.floor_le _
  have h2 : z - 1/2 ≤ (round z : ℚ) := by
    rw [round_eq]
    have h3 := Int.lt_floor_add_one (z + 1/2)
    push_cast at h3 ⊢
    linarith
  rw [hv, abs_le]
  constructor
  · nlinarith
  · nlinarith

theorem dWeight_nonneg (w h x y c j : ℕ) : 0 ≤ dWeight w h x y c j := by
  unfold dWeight
  split_ifs <;> norm_num

theorem recvW_nonneg (w h m x y c : ℕ) : 0 ≤ recvW w h m x y c := by
  unfold recvW
  split_ifs <;> norm_num

theorem recvW_le_one (w h m x y c : ℕ) : recvW w h m x y c ≤ 1 := by
  unfold recvW
  split_ifs <;> norm_num

/-- The scan step stores the quantised value at its own cell. -/
theorem ditherChannelStep_at {w h : ℕ} (step : ℚ) {x y c : ℕ} (hx : x < w) (a : ℕ → ℚ) :
    ditherChannelStep w h step y x c a ((y * w + x) * 4 + c) =
      (round (a ((y * w + x) * 4 + c) / step) : ℚ) * step := by
  unfold ditherChannelStep
  have l1 : ¬((x + 1 < w) ∧ (y * w + x) * 4 + c = (y * w + x) * 4 + 4 + c) := by omega
  have l2 : ¬((1 ≤ x ∧ y + 1 < h) ∧
      (y * w + x) * 4 + c = (y * w + x) * 4 + w * 4 + c - 4) := by omega
  have l3 : ¬((y + 1 < h) ∧ (y * w + x) * 4 + c = (y * w + x) * 4 + w * 4 + c) := by omega
  have l4 : ¬((x + 1 < w ∧ y + 1 < h) ∧
      (y * w + x) * 4 + c = (y * w + x) * 4 + 4 + w * 4 + c) := by omega
  rw [diffuseTo_apply, if_neg l4, diffuseTo_apply, if_neg l3, diffuseTo_apply, if_neg l2,
    diffuseTo_apply, if_neg l1, Function.update_same]

/-- The scan step moves any other cell by at most its diffusion weight
times the quantisation-error bound. -/
theorem ditherChannelStep_diff_le {w h : ℕ} {step : ℚ} {x y c : ℕ} {E : ℚ} (a : ℕ → ℚ)
    {j : ℕ} (hj : j ≠ (y * w + x) * 4 + c)
    (hE : |a ((y * w + x) * 4 + c) -
      (round (a ((y * w + x) * 4 + c) / step) : ℚ) * step| ≤ E) :
    |ditherChannelStep w h step y x c a j - a j| ≤ dWeight w h x y c j * E := by
  have hE0 : 0 ≤ E := le_trans (abs_nonneg _) hE
  unfold ditherChannelStep dWeight
  set S := (y * w + x) * 4 + c with hS
  set nv := (round (a S / step) : ℚ) * step with hnv
  set e := a S - nv with he
  set b1 := Function.update a S nv with hb1
  set b2 := diffuseTo (x + 1 < w) ((y * w + x) * 4 + 4 + c) (e * (7/16)) b1 with hb2
  set b3 := diffuseTo (1 ≤ x ∧ y + 1 < h) ((y * w + x) * 4 + w * 4 + c - 4) (e * (3/16)) b2
    with hb3
  set b4 := diffuseTo (y + 1 < h) ((y * w + x) * 4 + w * 4 + c) (e * (5/16)) b3 with hb4
  set b5 := diffuseTo (x + 1 < w ∧ y + 1 < h) ((y * w + x) * 4 + 4 + w * 4 + c) (e * (1/16)) b4
    with hb5
  have h1 : b1 j = a j := by
    rw [hb1, Function.update_apply, if_neg hj]
  have key : ∀ (cond : Prop) (inst : Decidable cond) (t : ℕ) (b : ℕ → ℚ) (wt : ℚ),
      0 ≤ wt →
      |@diffuseTo cond inst t (e * wt) b j - b j| ≤ (if cond ∧ j = t then wt else 0) * E := by
    intro cond inst t b wt hwt
    rw [diffuseTo_apply]
    split_ifs with hcase
    · rw [add_sub_cancel_left, abs_mul]
      calc |e| * |wt| = |e| * wt := by rw [abs_of_nonneg hwt]
        _ ≤ E * wt := mul_le_mul_of_nonneg_right hE hwt
        _ = wt * E := by ring
    · simp
  have d2 := key (x + 1 < w) inferInstance ((y * w + x) * 4 + 4 + c) b1 (7/16) (by norm_num)
  have d3 := key (1 ≤ x ∧ y + 1 < h) inferInstance ((y * w + x) * 4 + w * 4 + c - 4) b2 (3/16)
    (by norm_num)
  have d4 := key (y + 1 < h) inferInstance ((y * w + x) * 4 + w * 4 + c) b3 (5/16) (by norm_num)
  have d5 := key (x + 1 < w ∧ y + 1 < h) inferInstance ((y * w + x) * 4 + 4 + w * 4 + c) b4
    (1/16) (by norm_num)
  rw [← hb2] at d2
  rw [← hb3] at d3
  rw [← hb4] at d4
  rw [← hb5] at d5
  have tele : b5 j - a j = (b5 j - b4 j) + (b4 j - b3 j) + (b3 j - b2 j) + (b2 j - b1 j) := by
    rw [h1]
    ring
  calc |b5 j - a j|
      = |(b5 j - b4 j) + (b4 j - b3 j) + (b3 j - b2 j) + (b2 j - b1 j)| := by rw [tele]
    _ ≤ |(b5 j - b4 j) + (b4 j - b3 j) + (b3 j - b2 j)| + |b2 j - b1 j| := abs_add _ _
    _ ≤ (|b5 j - b4 j| + |b4 j - b3 j| + |b3 j - b2 j|) + |b2 j - b1 j| :=
        add_le_add_right (abs_add_three _ _ _) _
    _ ≤ ((if (x + 1 < w ∧ y + 1 < h) ∧ j = (y * w + x) * 4 + 4 + w * 4 + c then (1:ℚ)/16 else 0) * E +
          (if y + 1 < h ∧ j = (y * w + x) * 4 + w * 4 + c then (5:ℚ)/16 else 0) * E +
          (if (1 ≤ x ∧ y + 1 < h) ∧ j = (y * w + x) * 4 + w * 4 + c - 4 then (3:ℚ)/16 else 0) * E) +
          (if x + 1 < w ∧ j = (y * w + x) * 4 + 4 + c then (7:ℚ)/16 else 0) * E := by
        exact add_le_add (add_le_add (add_le_add d5 d4) d3) d2
    _ = ((if x + 1 < w ∧ j = (y * w + x) * 4 + 4 + c then (7:ℚ)/16 else 0) +
          (if (1 ≤ x ∧ y + 1 < h) ∧ j = (y * w + x) * 4 + w * 4 + c - 4 then (3:ℚ)/16 else 0) +
          (if y + 1 < h ∧ j = (y * w + x) * 4 + w * 4 + c then (5:ℚ)/16 else 0) +
          (if (x + 1 < w ∧ y + 1 < h) ∧ j = (y * w + x) * 4 + 4 + w * 4 + c then (1:ℚ)/16 else 0)) *
          E := by ring

/-- A cell that receives a nonzero diffusion weight from the scan step at
`(x, y, c)` lies strictly later in scan order. -/
theorem dWeight_pos_gt {w h x y c x'' y'' c'' : ℕ} (hx : x < w) (hx'' : x'' < w)
    (hc : c < 3) (hc'' : c'' < 3)
    (hw : dWeight w h x y c ((y'' * w + x'') * 4 + c'') ≠ 0) :
    3 * (y * w + x) + c < 3 * (y'' * w + x'') + c'' := by
  unfold dWeight at hw
  have hd : (y + 1) * w = y * w + w := by ring
  by_cases h1 : x + 1 < w ∧ (y'' * w + x'') * 4 + c'' = (y * w + x) * 4 + 4 + c
  · obtain ⟨e1, e2, e3⟩ := cell_inj hx'' h1.1 (by omega) (by omega)
      (show (y'' * w + x'') * 4 + c'' = (y * w + (x + 1)) * 4 + c by omega)
    have r1 : y'' * w = y * w := by rw [e1]
    omega
  · by_cases h2 : (1 ≤ x ∧ y + 1 < h) ∧
        (y'' * w + x'') * 4 + c'' = (y * w + x) * 4 + w * 4 + c - 4
    · obtain ⟨e1, e2, e3⟩ := cell_inj hx'' (show x - 1 < w by omega) (by omega) (by omega)
        (show (y'' * w + x'') * 4 + c'' = ((y + 1) * w + (x - 1)) * 4 + c by omega)
      have r1 : y'' * w = (y + 1) * w := by rw [e1]
      omega
    · by_cases h3 : y + 1 < h ∧ (y'' * w + x'') * 4 + c'' = (y * w + x) * 4 + w * 4 + c
      · obtain ⟨e1, e2, e3⟩ := cell_inj hx'' hx (by omega) (by omega)
          (show (y'' * w + x'') * 4 + c'' = ((y + 1) * w + x) * 4 + c by omega)
        have r1 : y'' * w = (y + 1) * w := by rw [e1]
        omega
      · by_cases h4 : (x + 1 < w ∧ y + 1 < h) ∧
            (y'' * w + x'') * 4 + c'' = (y * w + x) * 4 + 4 + w * 4 + c
        · obtain ⟨e1, e2, e3⟩ := cell_inj hx'' h4.1.1 (by omega) (by omega)
            (show (y'' * w + x'') * 4 + c'' = ((y + 1) * w + (x + 1)) * 4 + c by omega)
          have r1 : y'' * w = (y + 1) * w := by rw [e1]
          omega
        · exfalso
          rw [if_neg h1, if_neg h2, if_neg h3, if_neg h4] at hw
          simp at hw

/-- Processing the scan step at position `m = 3*(y*w+x)+c` raises the
received-weight budget of every cell by at least the weight that step
sends to it. -/
theorem recvW_succ_ge {w h x y c x'' y'' c'' : ℕ} (hx : x < w) (hy : y < h) (hc : c < 3)
    (hx'' : x'' < w) (hy'' : y'' < h) (hc'' : c'' < 3) :
    recvW w h (3 * (y * w + x) + c) x'' y'' c'' +
      dWeight w h x y c ((y'' * w + x'') * 4 + c'') ≤
    recvW w h (3 * (y * w + x) + c + 1) x'' y'' c'' := by
  unfold recvW dWeight
  set m := 3 * (y * w + x) + c with hm
  have hd : (y + 1) * w = y * w + w := by ring
  have t1 : (if 1 ≤ x'' ∧ 3 * (y'' * w + (x'' - 1)) + c'' < m then (7:ℚ)/16 else 0) +
      (if x + 1 < w ∧ (y'' * w + x'') * 4 + c'' = (y * w + x) * 4 + 4 + c then (7:ℚ)/16 else 0) ≤
      (if 1 ≤ x'' ∧ 3 * (y'' * w + (x'' - 1)) + c'' < m + 1 then (7:ℚ)/16 else 0) := by
    by_cases hB : x + 1 < w ∧ (y'' * w + x'') * 4 + c'' = (y * w + x) * 4 + 4 + c
    · obtain ⟨e1, e2, e3⟩ := cell_inj hx'' hB.1 (by omega) (by omega)
        (show (y'' * w + x'') * 4 + c'' = (y * w + (x + 1)) * 4 + c by omega)
      have r1 : y'' * w = y * w := by rw [e1]
      rw [if_pos hB, if_neg (by rw [r1]; omega), if_pos (by rw [r1]; omega)]
      norm_num
    · rw [if_neg hB, add_zero]
      by_cases hA : 1 ≤ x'' ∧ 3 * (y'' * w + (x'' - 1)) + c'' < m
      · rw [if_pos hA, if_pos (by omega)]
      · rw [if_neg hA]
        split_ifs <;> norm_num
  have t2 : (if x'' + 1 < w ∧ 1 ≤ y'' ∧ 3 * ((y'' - 1) * w + (x'' + 1)) + c'' < m
        then (3:ℚ)/16 else 0) +
      (if (1 ≤ x ∧ y + 1 < h) ∧ (y'' * w + x'') * 4 + c'' = (y * w + x) * 4 + w * 4 + c - 4
        then (3:ℚ)/16 else 0) ≤
      (if x'' + 1 < w ∧ 1 ≤ y'' ∧ 3 * ((y'' - 1) * w + (x'' + 1)) + c'' < m + 1
        then (3:ℚ)/16 else 0) := by
    by_cases hB : (1 ≤ x ∧ y + 1 < h) ∧
        (y'' * w + x'') * 4 + c'' = (y * w + x) * 4 + w * 4 + c - 4
    · obtain ⟨e1, e2, e3⟩ := cell_inj hx'' (show x - 1 < w by omega) (by omega) (by omega)
        (show (y'' * w + x'') * 4 + c'' = ((y + 1) * w + (x - 1)) * 4 + c by omega)
      have r1 : (y'' - 1) * w = y * w := by
        rw [e1]
        simp
      rw [if_pos hB, if_neg (by rw [r1]; omega), if_pos (by rw [r1]; omega)]
      norm_num
    · rw [if_neg hB, add_zero]
      by_cases hA : x'' + 1 < w ∧ 1 ≤ y'' ∧ 3 * ((y'' - 1) * w + (x'' + 1)) + c'' < m
      · rw [if_pos hA, if_pos (by omega)]
      · rw [if_neg hA]
        split_ifs <;> norm_num
  have t3 : (if 1 ≤ y'' ∧ 3 * ((y'' - 1) * w + x'') + c'' < m then (5:ℚ)/16 else 0) +
      (if y + 1 < h ∧ (y'' * w + x'') * 4 + c'' = (y * w + x) * 4 + w * 4 + c
        then (5:ℚ)/16 else 0) ≤
      (if 1 ≤ y'' ∧ 3 * ((y'' - 1) * w + x'') + c'' < m + 1 then (5:ℚ)/16 else 0) := by
    by_cases hB : y + 1 < h ∧ (y'' * w + x'') * 4 + c'' = (y * w + x) * 4 + w * 4 + c
    · obtain ⟨e1, e2, e3⟩ := cell_inj hx'' hx (by omega) (by omega)
        (show (y'' * w + x'') * 4 + c'' = ((y + 1) * w + x) * 4 + c by omega)
      have r1 : (y'' - 1) * w = y * w := by
        rw [e1]
        simp
      rw [if_pos hB, if_neg (by rw [r1]; omega), if_pos (by rw [r1]; omega)]
      norm_num
    · rw [if_neg hB, add_zero]
      by_cases hA : 1 ≤ y'' ∧ 3 * ((y'' - 1) * w + x'') + c'' < m
      · rw [if_pos hA, if_pos (by omega)]
      · rw [if_neg hA]
        split_ifs <;> norm_num
  have t4 : (if 1 ≤ x'' ∧ 1 ≤ y'' ∧ 3 * ((y'' - 1) * w + (x'' - 1)) + c'' < m
        then (1:ℚ)/16 else 0) +
      (if (x + 1 < w ∧ y + 1 < h) ∧ (y'' * w + x'') * 4 + c'' = (y * w + x) * 4 + 4 + w * 4 + c
        then (1:ℚ)/16 else 0) ≤
      (if 1 ≤ x'' ∧ 1 ≤ y'' ∧ 3 * ((y'' - 1) * w + (x'' - 1)) + c'' < m + 1
        then (1:ℚ)/16 else 0) := by
    by_cases hB : (x + 1 < w ∧ y + 1 < h) ∧
        (y'' * w + x'') * 4 + c'' = (y * w + x) * 4 + 4 + w * 4 + c
    · obtain ⟨e1, e2, e3⟩ := cell_inj hx'' hB.1.1 (by omega) (by omega)
        (show (y'' * w + x'') * 4 + c'' = ((y + 1) * w + (x + 1)) * 4 + c by omega)
      have r1 : (y'' - 1) * w = y * w := by
        rw [e1]
        simp
      rw [if_pos hB, if_neg (by rw [r1]; omega), if_pos (by rw [r1]; omega)]
      norm_num
    · rw [if_neg hB, add_zero]
      by_cases hA : 1 ≤ x'' ∧ 1 ≤ y'' ∧ 3 * ((y'' - 1) * w + (x'' - 1)) + c'' < m
      · rw [if_pos hA, if_pos (by omega)]
      · rw [if_neg hA]
        split_ifs <;> norm_num
  linarith [t1, t2, t3, t4]

theorem pos_inj {w x x' y y' c c' : ℕ} (hx : x < w) (hx' : x' < w) (hc : c < 3) (hc' : c' < 3)
    (h : 3 * (y * w + x) + c = 3 * (y' * w + x') + c') : y = y' ∧ x = x' ∧ c = c' := by
  have hp : y * w + x = y' * w + x' ∧ c = c' := by omega
  obtain ⟨hy, hxx⟩ := pixel_inj hx hx' hp.1
  exact ⟨hy, hxx, hp.2⟩

/-- The scan invariant is preserved by one channel step. -/
theorem DInv_step {w h shades : ℕ} {step : ℚ} {init : ℕ → ℚ} {m : ℕ} {x y c : ℕ}
    {a : ℕ → ℚ}
    (hx : x < w) (hy : y < h) (hc : c < 3) (hm : m = 3 * (y * w + x) + c)
    (hstep : 0 < step)
    (hQ : (255 : ℚ) < step * ((shades : ℚ) - 1))
    (hsh : 1 ≤ shades)
    (hinit : ∀ i, 0 ≤ init i ∧ init i ≤ 255)
    (hInv : DInv w h shades step init m a) :
    DInv w h shades step init (m + 1) (ditherChannelStep w h step y x c a) := by
  obtain ⟨-, hcur⟩ := hInv x y c hx hy hc
  have hcur' : |a ((y * w + x) * 4 + c) - init ((y * w + x) * 4 + c)| ≤
      step / 2 * recvW w h m x y c := hcur (by omega)
  have hbound : |a ((y * w + x) * 4 + c) - init ((y * w + x) * 4 + c)| ≤ step / 2 := by
    calc |a ((y * w + x) * 4 + c) - init ((y * w + x) * 4 + c)|
        ≤ step / 2 * recvW w h m x y c := hcur'
      _ ≤ step / 2 * 1 := mul_le_mul_of_nonneg_left (recvW_le_one w h m x y c) (by positivity)
      _ = step / 2 := mul_one _
  obtain ⟨hi0, hi255⟩ := hinit ((y * w + x) * 4 + c)
  obtain ⟨hb1, hb2⟩ := abs_le.mp hbound
  have hlo : -(step / 2) ≤ a ((y * w + x) * 4 + c) := by linarith
  have hhi : a ((y * w + x) * 4 + c) ≤ 255 + step / 2 := by linarith
  have hk0 : 0 ≤ round (a ((y * w + x) * 4 + c) / step) := by
    apply round_nonneg_of_le
    rw [le_div_iff hstep]
    linarith
  have hk1 : round (a ((y * w + x) * 4 + c) / step) ≤ (shades : ℤ) - 1 := by
    apply round_le_of_lt
    have h1 : a ((y * w + x) * 4 + c) / step < (shades : ℚ) - 1 / 2 := by
      rw [div_lt_iff hstep]
      nlinarith
    push_cast
    linarith
  have herr : |a ((y * w + x) * 4 + c) -
      (round (a ((y * w + x) * 4 + c) / step) : ℚ) * step| ≤ step / 2 := err_abs_le hstep
  intro x'' y'' c'' hx'' hy'' hc''
  by_cases hsame : y'' = y ∧ x'' = x ∧ c'' = c
  · obtain ⟨ey, ex, ec⟩ := hsame
    cases ey; cases ex; cases ec
    constructor
    · intro _
      refine ⟨(round (a ((y * w + x) * 4 + c) / step)).toNat, by omega, ?_⟩
      rw [ditherChannelStep_at step hx]
      congr 1
      have := Int.toNat_of_nonneg hk0
      exact_mod_cast this.symm
    · intro hcon
      exact absurd (by omega : 3 * (y * w + x) + c < m + 1) hcon
  · have hjne : (y'' * w + x'') * 4 + c'' ≠ (y * w + x) * 4 + c := by
      intro heq
      exact hsame (cell_inj hx'' hx (by omega) (by omega) heq)
    have hpne : 3 * (y'' * w + x'') + c'' ≠ m := by
      intro heq
      exact hsame (pos_inj hx'' hx hc'' hc (by omega))
    have hdd := @ditherChannelStep_diff_le w h step x y c (step / 2)
      a ((y'' * w + x'') * 4 + c'') hjne herr
    by_cases hplt : 3 * (y'' * w + x'') + c'' < m
    · have hdw : dWeight w h x y c ((y'' * w + x'') * 4 + c'') = 0 := by
        by_contra hne
        have := dWeight_pos_gt hx hx'' hc hc'' hne
        omega
      have hval : ditherChannelStep w h step y x c a ((y'' * w + x'') * 4 + c'') =
          a ((y'' * w + x'') * 4 + c'') := by
        rw [hdw, zero_mul] at hdd
        have h0 : |ditherChannelStep w h step y x c a ((y'' * w + x'') * 4 + c'') -
            a ((y'' * w + x'') * 4 + c'')| = 0 := le_antisymm hdd (abs_nonneg _)
        have := abs_eq_zero.mp h0
        linarith [this]
      constructor
      · intro _
        obtain ⟨hproc, -⟩ := hInv x'' y'' c'' hx'' hy'' hc''
        obtain ⟨k, hk, hkv⟩ := hproc hplt
        exact ⟨k, hk, by rw [hval]; exact hkv⟩
      · intro hcon
        exact absurd (by omega) hcon
    · have hpgt : m < 3 * (y'' * w + x'') + c'' := by omega
      constructor
      · intro hcon
        exact absurd hcon (by omega)
      · intro _
        obtain ⟨-, hunproc⟩ := hInv x'' y'' c'' hx'' hy'' hc''
        have hold : |a ((y'' * w + x'') * 4 + c'') - init ((y'' * w + x'') * 4 + c'')| ≤
            step / 2 * recvW w h m x'' y'' c'' := hunproc (by omega)
        have hsucc := recvW_succ_ge hx hy hc hx'' hy'' hc''
        rw [← hm] at hsucc
        calc |ditherChannelStep w h step y x c a ((y'' * w + x'') * 4 + c'') -
              init ((y'' * w + x'') * 4 + c'')|
            ≤ |ditherChannelStep w h step y x c a ((y'' * w + x'') * 4 + c'') -
                a ((y'' * w + x'') * 4 + c'')| +
              |a ((y'' * w + x'') * 4 + c'') - init ((y'' * w + x'') * 4 + c'')| :=
              abs_sub_le _ _ _
          _ ≤ dWeight w h x y c ((y'' * w + x'') * 4 + c'') * (step / 2) +
              step / 2 * recvW w h m x'' y'' c'' := add_le_add hdd hold
          _ = step / 2 * (recvW w h m x'' y'' c'' +
              dWeight w h x y c ((y'' * w + x'') * 4 + c'')) := by ring
          _ ≤ step / 2 * recvW w h (m + 1) x'' y'' c'' :=
              mul_le_mul_of_nonneg_left hsucc (by positivity)

/-- The scan invariant is preserved by the three channel steps of one pixel. -/
theorem DInv_pixel {w h shades : ℕ} {step : ℚ} {init : ℕ → ℚ} {x y : ℕ} {a : ℕ → ℚ}
    (hx : x < w) (hy : y < h)
    (hstep : 0 < step) (hQ : (255 : ℚ) < step * ((shades : ℚ) - 1)) (hsh : 1 ≤ shades)
    (hinit : ∀ i, 0 ≤ init i ∧ init i ≤ 255)
    (hInv : DInv w h shades step init (3 * (y * w + x)) a) :
    DInv w h shades step init (3 * (y * w + x) + 3)
      ((List.range 3).foldl (fun a c => ditherChannelStep w h step y x c a) a) := by
  rw [show List.range 3 = [0, 1, 2] from rfl]
  simp only [List.foldl_cons, List.foldl_nil]
  exact DInv_step hx hy (by omega) (by omega) hstep hQ hsh hinit
    (DInv_step hx hy (by omega) (by omega) hstep hQ hsh hinit
      (DInv_step hx hy (by omega) (by omega) hstep hQ hsh hinit hInv))

/-- The scan invariant after the first `n` pixels of row `y`. -/
theorem DInv_row {w h shades : ℕ} {step : ℚ} {init : ℕ → ℚ} {y : ℕ}
    (hy : y < h)
    (hstep : 0 < step) (hQ : (255 : ℚ) < step * ((shades : ℚ) - 1)) (hsh : 1 ≤ shades)
    (hinit : ∀ i, 0 ≤ init i ∧ init i ≤ 255) :
    ∀ n, n ≤ w → ∀ a, DInv w h shades step init (3 * (y * w)) a →
      DInv w h shades step init (3 * (y * w + n))
        ((List.range n).foldl (fun a x =>
          (List.range 3).foldl (fun a c => ditherChannelStep w h step y x c a) a) a) := by
  intro n
  induction n with
  | zero =>
    intro _ a hInv
    simpa using hInv
  | succ n ih =>
    intro hn a hInv
    rw [show List.range (n + 1) = List.range n ++ [n] from List.range_succ n,
      List.foldl_append, List.foldl_cons, List.foldl_nil]
    have hnext := DInv_pixel (show n < w by omega) hy hstep hQ hsh hinit
      (ih (by omega) a hInv)
    have he : 3 * (y * w + n) + 3 = 3 * (y * w + (n + 1)) := by ring
    rwa [he] at hnext

/-- The scan invariant after the first `n` rows. -/
theorem DInv_rows {w h shades : ℕ} {step : ℚ} {init : ℕ → ℚ}
    (hstep : 0 < step) (hQ : (255 : ℚ) < step * ((shades : ℚ) - 1)) (hsh : 1 ≤ shades)
    (hinit : ∀ i, 0 ≤ init i ∧ init i ≤ 255) :
    ∀ n, n ≤ h → ∀ a, DInv w h shades step init 0 a →
      DInv w h shades step init (3 * (n * w))
        ((List.range n).foldl (fun a y => (List.range w).foldl (fun a x =>
          (List.range 3).foldl (fun a c => ditherChannelStep w h step y x c a) a) a) a) := by
  intro n
  induction n with
  | zero =>
    intro _ a hInv
    simpa using hInv
  | succ n ih =>
    intro hn a hInv
    rw [show List.range (n + 1) = List.range n ++ [n] from List.range_succ n,
      List.foldl_append, List.foldl_cons, List.foldl_nil]
    have hnext := DInv_row (show n < h by omega) hstep hQ hsh hinit w le_rfl _
      (ih (by omega) a hInv)
    have he : 3 * (n * w + w) = 3 * ((n + 1) * w) := by ring
    rwa [he] at hnext

/-- After the whole scan, every RGB cell of the working array holds a
ladder value `k * step` with `k ≤ shades - 1`. -/
theorem ditherFloats_ladder (img : ImageData) (shades : ℕ) (hsh : 2 ≤ shades)
    (hdata : ∀ v ∈ img.data, v ≤ 255) {x y c : ℕ}
    (hx : x < img.width) (hy : y < img.height) (hc : c < 3) :
    ∃ k : ℕ, k ≤ shades - 1 ∧
      ditherFloats img shades ((y * img.width + x) * 4 + c) =
        (k : ℚ) * ditherStepSize shades := by
  have hs2 : (2 : ℚ) ≤ (shades : ℚ) := by exact_mod_cast hsh
  have hstep : 0 < ditherStepSize shades := by
    unfold ditherStepSize
    have h1 : (0 : ℚ) < (shades : ℚ) - 1 := by linarith
    positivity
  have hQ : (255 : ℚ) < ditherStepSize shades * ((shades : ℚ) - 1) := by
    unfold ditherStepSize
    rw [div_mul_cancel₀]
    · norm_num
    · intro h0
      rw [sub_eq_zero] at h0
      linarith
  have hinit : ∀ i, 0 ≤ getQ img.data i ∧ getQ img.data i ≤ 255 := by
    intro i
    obtain ⟨he, hle⟩ := getQ_le_255 hdata i
    refine ⟨by rw [he]; positivity, by rw [he]; exact_mod_cast hle⟩
  have h0 : DInv img.width img.height shades (ditherStepSize shades)
      (fun i => getQ img.data i) 0 (fun i => getQ img.data i) := by
    intro x' y' c' _ _ _
    constructor
    · intro hcon
      exact absurd hcon (by omega)
    · intro _
      simp only [sub_self, abs_zero]
      exact mul_nonneg (by positivity) (recvW_nonneg _ _ _ _ _ _)
  have hall := DInv_rows hstep hQ (by omega) hinit img.height le_rfl _ h0
  obtain ⟨hproc, -⟩ := hall x y c hx hy hc
  have hlt : 3 * (y * img.width + x) + c < 3 * (img.height * img.width) := by
    have h5 : y * img.width + x < img.height * img.width := by
      calc y * img.width + x < (y + 1) * img.width := by
            have : (y + 1) * img.width = y * img.width + img.width := by ring
            omega
        _ ≤ img.height * img.width := Nat.mul_le_mul_right img.width hy
    omega
  exact hproc hlt

/-- Claim C2, amended: with `step = 4000/(shades-1)` and `shades ≥ 2`, on a
buffer with channel values in `[0, 255]` the dithering stage stores at
each pixel/colour-channel the quantised value `round(old/step) * step`, a
value on the fixed ladder `{k * step : k = 0..shades-1}` before clamping
(the spec's ladder `{round(k * step)}` is wrong for non-integer steps),
and every channel sample of the final output lies in `[0, 255]`. -/
theorem claim_C2_dither_ladder (img : ImageData) (shades : ℕ) (hsh : 2 ≤ shades)
    (hdata : ∀ v ∈ img.data, v ≤ 255) (x y c : ℕ)
    (hx : x < img.width) (hy : y < img.height) (hc : c < 3) :
    (∃ k : ℕ, k ≤ shades - 1 ∧
      ditherFloats img shades ((y * img.width + x) * 4 + c) =
        (k : ℚ) * ditherStepSize shades) ∧
    ∀ i : ℕ, (floydSteinbergDitherImageData img shades).data.getD i 0 ≤ 255 := by
  constructor
  · exact ditherFloats_ladder img shades hsh hdata hx hy hc
  · intro i
    unfold floydSteinbergDitherImageData
    by_cases hi : i < img.data.length
    · rw [getD_map_range hi]
      exact toU8_le_255 _
    · rw [List.getD_eq_default]
      · omega
      · simpa using (by omega : ¬(i < img.data.length))

/-- Witness for the amended C2 at a concrete buffer. -/
theorem claim_C2_dither_ladder_witness :
    (2 : ℕ) ≤ 2 ∧ (∀ v ∈ ([10, 20, 30, 255] : List ℕ), v ≤ 255) ∧
    (0 : ℕ) < 1 ∧
    ((∃ k : ℕ, k ≤ 2 - 1 ∧
      ditherFloats ⟨[10, 20, 30, 255], 1, 1⟩ 2 ((0 * 1 + 0) * 4 + 0) =
        (k : ℚ) * ditherStepSize 2) ∧
    ∀ i : ℕ, (floydSteinbergDitherImageData ⟨[10, 20, 30, 255], 1, 1⟩ 2).data.getD i 0 ≤ 255) :=
  ⟨by decide, by decide, by decide,
    claim_C2_dither_ladder ⟨[10, 20, 30, 255], 1, 1⟩ 2 (by decide) (by decide) 0 0 0
      (by decide) (by decide) (by decide)⟩

/-- Counterexample to Claim C2 as stated: on the 1-by-1 buffer with red
channel 138 and `shades = 30` (step `4000/29`), the stored quantised value
is `4000/29`, which is not on the spec's ladder `{round(k * step) :
k = 0..shades-1}` — every ladder element is an integer while `4000/29` is
not. -/
theorem claim_C2_counterexample :
    ditherFloats ⟨[138, 0, 0, 255], 1, 1⟩ 30 0 = 4000 / 29 ∧
    ∀ k < 30, ((round ((k : ℚ) * (4000 / 29)) : ℤ) : ℚ) ≠ 4000 / 29 := by
  constructor
  · have h := ditherFloats_onepixel [138, 0, 0, 255] 30 0
    rw [h]
    norm_num [getQ, ditherStepSize, round_eq]
  · intro k _ hcon
    have h29 : (29 : ℚ) * ((round ((k : ℚ) * (4000 / 29)) : ℤ) : ℚ) = 4000 := by
      rw [hcon]
      norm_num
    have h29' : (29 : ℤ) * round ((k : ℚ) * (4000 / 29)) = 4000 := by exact_mod_cast h29
    omega

end AlbumArt
